import Mathlib

/-!
Shallow embedding of the dnsr iterative caching DNS resolver (package `dnsr`,
canonical revision `resolver.go`, shared helpers from the channel revision).

Modelling conventions:
* Go strings are Lean `String` (in this toolchain a wrapper around `List Char`).
* A Go `[]*RR` that distinguishes `nil` from an empty slice is `Option (List RR)`
  (`none` = nil, `some []` = empty non-nil slice).
* The miekg/dns codec functions used by the resolver (`Fqdn`, `SplitDomainName`,
  `CountLabel`, `StringToType`, `TypeToString`) are external library code; they
  are modelled here for unescaped names, following the library's documented
  behaviour (splitting on `.`; the root `"."` and `""` have no labels to split;
  `CountLabel` of `""` is 1; `CountLabel` of `"."` is 0).
* The network is an oracle `Net`: server IP, query name and wire type code to an
  optional response message (`none` = error/timeout).
* Concurrency is sequentialized: the goroutine probes of `iterateParents` run
  synchronously in launch order, and the first probe that signals success takes
  the role of the winner of the `select` rendezvous.  Exchange counts (third
  component of results) count calls of `client.Exchange`.
-/

/-- Model of ASCII lowercasing of one character, as performed by Go
`strings.ToLower` on the ASCII domain names handled by the resolver. -/
def lowerChar (c : Char) : Char :=
  if 65 ≤ c.toNat ∧ c.toNat ≤ 90 then Char.ofNat (c.toNat + 32) else c

/-- Model of `dns.Fqdn` on character lists: append a trailing dot unless the
name already ends in one. -/
def fqdnL (cs : List Char) : List Char :=
  if cs.getLast? = some '.' then cs else cs ++ ['.']

/-- `toLowerFQDN` from the source: `dns.Fqdn(strings.ToLower(name))`. -/
def toLowerFQDN (name : String) : String :=
  ⟨fqdnL (name.data.map lowerChar)⟩

/-- Splitting a character list at every dot (model of the label splitting of
the dns codec, for names without escaped dots).  Always non-empty. -/
def splitLabels : List Char → List (List Char)
  | [] => [[]]
  | c :: cs =>
    if c = '.' then [] :: splitLabels cs
    else (c :: (splitLabels cs).headI) :: (splitLabels cs).tail

/-- Drop the trailing dot of a fully-qualified name, if present. -/
def stripDot (cs : List Char) : List Char :=
  if cs.getLast? = some '.' then cs.dropLast else cs

/-- Model of `dns.SplitDomainName`: `nil` (here `[]`) for `""` and `"."`,
otherwise the labels of the name with a trailing dot removed. -/
def splitDomainName (name : String) : List (List Char) :=
  if name.data = [] ∨ name.data = ['.'] then [] else splitLabels (stripDot name.data)

/-- Joining labels with dots (model of `strings.Join(labels, ".")`). -/
def joinLabels : List (List Char) → List Char
  | [] => []
  | [l] => l
  | l :: l' :: ls => l ++ '.' :: joinLabels (l' :: ls)

/-- `parent` from the source: strip the leftmost label; `none` (Go `false`)
exactly when the codec splits the name to `nil`. -/
def parent (name : String) : Option String :=
  match splitDomainName name with
  | [] => none
  | _ :: tl => some (toLowerFQDN ⟨joinLabels tl⟩)

/-- Model of `dns.CountLabel`: 0 for the root `"."`, 1 for `""`, otherwise the
number of labels. -/
def countLabel (s : String) : Nat :=
  if s.data = [] then 1 else (splitDomainName s).length

/-- The record triple `RR` of the source: owner name, textual type, rendered
value. -/
structure RR where
  name : String
  rtype : String
  value : String
deriving DecidableEq

/-- A wire record as decoded by the dns codec: owner name, numeric type code,
and the value already rendered to the string form `convertRR` would produce. -/
structure DnsRR where
  name : String
  rrtype : Nat
  value : String
deriving DecidableEq

/-- A wire response message: response code plus answer, authority and
additional sections. -/
structure DnsMsg where
  rcode : Nat
  answer : List DnsRR
  ns : List DnsRR
  extra : List DnsRR
deriving DecidableEq

/-- Model of `dns.TypeToString` restricted to the type codes this resolver can
meet. -/
def typeToString (t : Nat) : String :=
  if t = 1 then "A" else if t = 2 then "NS" else if t = 5 then "CNAME"
  else if t = 6 then "SOA" else if t = 15 then "MX" else if t = 16 then "TXT"
  else if t = 28 then "AAAA" else ""

/-- Model of `dns.StringToType` (Go map lookup, zero value 0 when the string
is absent), restricted to the type names relevant here. -/
def stringToType (s : String) : Nat :=
  if s = "A" then 1 else if s = "NS" then 2 else if s = "CNAME" then 5
  else if s = "SOA" then 6 else if s = "MX" then 15 else if s = "TXT" then 16
  else if s = "AAAA" then 28 else 0

/-- `convertRR` from the source: only `NS`, `CNAME`, `A`, `AAAA` and `TXT`
records yield a triple; every other type converts to `nil`. -/
def convertRR (drr : DnsRR) : Option RR :=
  if drr.rrtype = 2 ∨ drr.rrtype = 5 ∨ drr.rrtype = 1 ∨ drr.rrtype = 28 ∨ drr.rrtype = 16
  then some ⟨drr.name, typeToString drr.rrtype, drr.value⟩ else none

/-- The resolver cache, keyed by owner name.  Modelled from the spec: the
`cache` type of the canonical revision is not among the given source files;
§4.4 specifies a map from name to a set of record triples (the LRU eviction
policy is irrelevant to the claims below and is not modelled). -/
def Cache : Type := List (String × List RR)

instance : DecidableEq Cache := by
  unfold Cache; infer_instance

/-- Modelled from the spec: `cache.get(name)` returns `nil` when the name has
no entry, otherwise the entry's record set (possibly empty). -/
def cacheGetEntry : Cache → String → Option (List RR)
  | [], _ => none
  | (k, rrs) :: rest, name => if k = name then some rrs else cacheGetEntry rest name

/-- Insert one record into an entry's record set (Go set semantics of
`map[RR]struct{}`: duplicates collapse). -/
def insertRR (rrs : List RR) (rr : RR) : List RR :=
  if rr ∈ rrs then rrs else rrs ++ [rr]

/-- Modelled from the spec: `cache.add(name, rrs...)` ensures an entry for
`name` exists (creating it empty if needed) and inserts each record into its
set; called with zero records it materializes an empty tombstone. -/
def cacheAdd : Cache → String → List RR → Cache
  | [], name, new => [(name, new.foldl insertRR [])]
  | (k, rrs) :: rest, name, new =>
    if k = name then (k, new.foldl insertRR rrs) :: rest
    else (k, rrs) :: cacheAdd rest name new

/-- Modelled from the spec: the immutable root hint store `rootCache`,
holding `NS` records for the root and `A` glue for the root servers (§6),
parsed from the bundled zone text at process start. -/
def rootHints : Cache :=
  [(".", [⟨".", "NS", "a.root-servers.net."⟩, ⟨".", "NS", "b.root-servers.net."⟩]),
   ("a.root-servers.net.", [⟨"a.root-servers.net.", "A", "198.41.0.4"⟩]),
   ("b.root-servers.net.", [⟨"b.root-servers.net.", "A", "199.9.14.201"⟩])]

/-- The first half of `cacheGet` in `resolver.go`: the resolver cache entry,
falling back to the root hint store when the cache has no entry. -/
def getAny (c : Cache) (qname : String) : Option (List RR) :=
  match cacheGetEntry c qname with
  | some v => some v
  | none => cacheGetEntry rootHints qname

/-- `cacheGet` from `resolver.go` (lines 207-225): miss is `nil`; an empty
entry is returned as is; otherwise the entry filtered by `qtype` (empty string
matches all), with `nil` replacing an empty filtered slice unless the query
type is `""` or `"NS"`. -/
def cacheGet (c : Cache) (qname qtype : String) : Option (List RR) :=
  match getAny c qname with
  | none => none
  | some any =>
    if any.length = 0 then some any
    else
      let rrs := any.filter (fun rr => qtype = "" ∨ rr.rtype = qtype)
      if rrs.length = 0 ∧ (¬qtype = "" ∧ ¬qtype = "NS") then none else some rrs

def MaxRecursion : Nat := 10

def MaxNameservers : Nat := 2

def MaxIPs : Nat := 2

/-- The wire type code used by `exchange` (`resolver.go` lines 116-119):
`dns.StringToType[qtype]`, with the zero value replaced by `dns.TypeA`. -/
def dtypeFor (qtype : String) : Nat :=
  let dtype := stringToType qtype
  if dtype = 0 then 1 else dtype

/-- Group converted records by owner name, preserving first-seen key order
(the `rrsByName` map built by `saveDNSRR`). -/
def addToGroup : List (String × List RR) → RR → List (String × List RR)
  | [], rr => [(rr.name, [rr])]
  | (k, g) :: rest, rr =>
    if k = rr.name then (k, g ++ [rr]) :: rest else (k, g) :: addToGroup rest rr

def groupByName (rrs : List RR) : List (String × List RR) :=
  rrs.foldl addToGroup []

/-- The poisoning filter of `saveDNSRR`: keep a response record unless it is
an `NS` record whose owner name has fewer labels than the query name. -/
def keepDrr (cl : Nat) (drr : DnsRR) : Bool :=
  ¬(drr.rrtype = 2 ∧ countLabel drr.name < cl)

/-- `saveDNSRR` from `resolver.go` (lines 183-204): drop poisoning `NS`
records, convert the survivors, group them by owner name and add each group to
the cache (the `host` and `qtype` arguments of the source only feed the warning
log and are omitted). -/
def saveDNSRR (c : Cache) (qname : String) (drrs : List DnsRR) : Cache :=
  let cl := countLabel qname
  let conv := (drrs.filter (keepDrr cl)).filterMap convertRR
  (groupByName conv).foldl (fun acc e => cacheAdd acc e.1 e.2) c

/-- The network oracle: server IP, query name and wire type code to an
optional response (`none` = network error or timeout). -/
def Net : Type := String → String → Nat → Option DnsMsg

/-- The type of the recursive `resolve` entry point when the incremented depth
is already fixed: cache state in, optional results, new state, exchange count. -/
def ResolveFn : Type := Cache → String → String → Option (List RR) × Cache × Nat

/-- The IP loop of `exchange` (`resolver.go` lines 125-160): walk the `A`
records of the name server, cap at `MaxIPs`, query each IP; on the first
response record an NXDOMAIN tombstone if needed, save the three sections and
signal success. -/
def exchangeLoop (net : Net) (qname : String) (dtype : Nat) :
    List RR → Nat → Cache → Bool × Cache × Nat
  | [], _, s => (false, s, 0)
  | rr :: rest, count, s =>
    if ¬rr.rtype = "A" then exchangeLoop net qname dtype rest count s
    else if MaxIPs < count + 1 then (false, s, 0)
    else
      match net rr.value qname dtype with
      | none =>
        let r := exchangeLoop net qname dtype rest (count + 1) s
        (r.1, r.2.1, r.2.2 + 1)
      | some rmsg =>
        let s1 := if rmsg.rcode = 3 then cacheAdd s qname [] else s
        let s2 := saveDNSRR s1 qname (rmsg.answer ++ rmsg.ns ++ rmsg.extra)
        (true, s2, 1)

/-- `exchange` from `resolver.go` (lines 115-161): compute the wire type,
resolve the name server's `A` records through the engine itself, then run the
IP loop.  The success channel send is the returned Bool. -/
def exchangeGo (net : Net) (res : ResolveFn) (s : Cache) (host qname qtype : String) :
    Bool × Cache × Nat :=
  let dtype := dtypeFor qtype
  let r := res s host "A"
  let e := exchangeLoop net qname dtype (r.1.getD []) 0 r.2.1
  (e.1, e.2.1, r.2.2 + e.2.2)

/-- The loop body of `resolveCNAMEs` (`resolver.go` lines 165-178) over the
snapshot: append each snapshot record; for a `CNAME` record, resolve its
target, add every returned record to the cache under `qname`, and (as the
source is written) append the `CNAME` record again once per returned record. -/
def chaseLoop (res : ResolveFn) (qname qtype : String) :
    List RR → Cache → List RR × Cache × Nat
  | [], s => ([], s, 0)
  | crr :: rest, s =>
    if crr.rtype = "CNAME" then
      let r := res s crr.value qtype
      let sub := r.1.getD []
      let s2 := sub.foldl (fun acc rr => cacheAdd acc qname [rr]) r.2.1
      let t := chaseLoop res qname qtype rest s2
      (crr :: (sub.map (fun _ => crr) ++ t.1), t.2.1, r.2.2 + t.2.2)
    else
      let t := chaseLoop res qname qtype rest s
      (crr :: t.1, t.2.1, t.2.2)

/-- `resolveCNAMEs` from `resolver.go` (lines 163-180): snapshot the whole
entry for `qname` and chase it; the result slice is always non-nil. -/
def resolveCNAMEsGo (res : ResolveFn) (s : Cache) (qname qtype : String) :
    Option (List RR) × Cache × Nat :=
  let snap := (cacheGet s qname "").getD []
  let t := chaseLoop res qname qtype snap s
  (some t.1, t.2.1, t.2.2)

/-- Outcome of the name-server loop of one parent iteration: an early return
with cached records, a success signal from a probe, or no success (with the
number of probes launched). -/
inductive NsOutcome where
  | returned (rrs : List RR)
  | success
  | failed (count : Nat)
deriving DecidableEq

/-- The name-server loop of `iterateParents` (`resolver.go` lines 80-95), with
the concurrent probes sequentialized: before each candidate, re-check the
cache for specific queries; skip non-`NS` records; cap at `MaxNameservers`;
run the probe and stop at the first success. -/
def nsLoop (net : Net) (res : ResolveFn) (qname qtype : String) :
    List RR → Nat → Cache → NsOutcome × Cache × Nat
  | [], count, s => (.failed count, s, 0)
  | nrr :: rest, count, s =>
    match (if qtype = "" then none else cacheGet s qname qtype) with
    | some rrs => (.returned rrs, s, 0)
    | none =>
      if ¬nrr.rtype = "NS" then nsLoop net res qname qtype rest count s
      else if MaxNameservers < count + 1 then (.failed (count + 1), s, 0)
      else
        let e := exchangeGo net res s nrr.value qname qtype
        if e.1 then (.success, e.2.1, e.2.2)
        else
          let t := nsLoop net res qname qtype rest (count + 1) e.2.1
          (t.1, t.2.1, e.2.2 + t.2.2)

/-- The chain of names visited by the parent walk, with explicit gas (the
walk of `iterateParents` recomputes `parent` until it returns false; gas
`countLabel n + 1` suffices because each `parent` step strictly decreases the
label count, see `parentChainF_stable`). -/
def parentChainF : Nat → String → List String
  | 0, _ => []
  | g + 1, n =>
    n :: (match parent n with
          | none => []
          | some p => parentChainF g p)

def parentChain (n : String) : List String :=
  parentChainF (countLabel n + 1) n

/-- The parent loop of `iterateParents` (`resolver.go` lines 61-111): skip the
query name itself for `NS` queries; abort at the root for names with at least
two labels; resolve the parent's `NS` records (propagating `nil`); run the
name-server loop; on success run the CNAME chase; with no probes launched and
an `NS` query return the empty slice; otherwise continue with the next
parent. -/
def parentLoop (net : Net) (res : ResolveFn) (qname qtype : String) :
    List String → Cache → Option (List RR) × Cache × Nat
  | [], s => (none, s, 0)
  | pname :: rest, s =>
    if pname = qname ∧ qtype = "NS" then parentLoop net res qname qtype rest s
    else if 2 ≤ countLabel qname ∧ pname = "." then (none, s, 0)
    else
      let r := res s pname "NS"
      match r.1 with
      | none => (none, r.2.1, r.2.2)
      | some nrrs =>
        let t := nsLoop net res qname qtype nrrs 0 r.2.1
        match t.1 with
        | .returned rrs => (some rrs, t.2.1, r.2.2 + t.2.2)
        | .success =>
          let u := resolveCNAMEsGo res t.2.1 qname qtype
          (u.1, u.2.1, r.2.2 + t.2.2 + u.2.2)
        | .failed count =>
          if count = 0 ∧ qtype = "NS" then (some [], t.2.1, r.2.2 + t.2.2)
          else
            let u := parentLoop net res qname qtype rest t.2.1
            (u.1, u.2.1, r.2.2 + t.2.2 + u.2.2)

/-- `iterateParents` from `resolver.go` (lines 59-113). -/
def iterateParentsGo (net : Net) (res : ResolveFn) (s : Cache) (qname qtype : String) :
    Option (List RR) × Cache × Nat :=
  parentLoop net res qname qtype (parentChain qname) s

/-- The engine indexed by remaining recursion budget: fuel `f` plays the role
of `MaxRecursion - depth`, so fuel 0 is exactly the `depth > MaxRecursion`
abort of `resolve` and every nested call of the source (which passes the
incremented depth) receives fuel `f - 1`. -/
def resolveF (net : Net) : Nat → ResolveFn
  | 0 => fun s _ _ => (none, s, 0)
  | f + 1 => fun s qname qtype =>
    let qn := toLowerFQDN qname
    match cacheGet s qn qtype with
    | some rrs => (some rrs, s, 0)
    | none => iterateParentsGo net (resolveF net f) s qn qtype

/-- `resolve` from `resolver.go` (lines 45-57): increment `depth`, abort with
`nil` above `MaxRecursion`, normalize the name, answer from the cache when
possible, otherwise iterate the parents. -/
def resolve (net : Net) (s : Cache) (qname qtype : String) (depth : Nat) :
    Option (List RR) × Cache × Nat :=
  resolveF net (MaxRecursion - depth) s qname qtype

/-- Modelled from the spec: `newCache(capacity)` of the canonical revision is
not among the given source files; it creates an empty cache (the revision's own
test asserts a length of 0 directly after construction). -/
def newCacheModel (_capacity : Nat) : Cache := []

/-- `New` from `resolver.go` (lines 26-36): a fresh resolver holds a new cache
of the given capacity; no records are inserted at construction. -/
def New (capacity : Nat) : Cache := newCacheModel capacity

/-- Number of iterations of the parent walk `for pname, ok := n, true; ok;
pname, ok = parent(pname)` starting at `n`, with explicit gas. -/
def stepsToRoot : Nat → String → Option Nat
  | 0, _ => none
  | g + 1, n =>
    match parent n with
    | none => some 1
    | some p => (stepsToRoot g p).map (· + 1)

/-- Membership of a record in the cache entry of a given name. -/
def memCache (c : Cache) (n : String) (rr : RR) : Prop :=
  ∃ rrs, cacheGetEntry c n = some rrs ∧ rr ∈ rrs

/-- The cache invariant of the spec: every record lives under its own owner
name. -/
def CacheInv (c : Cache) : Prop :=
  ∀ n rrs, cacheGetEntry c n = some rrs → ∀ rr ∈ rrs, rr.name = n

/-- Number of dots in a character list. -/
def countDot : List Char → Nat
  | [] => 0
  | c :: cs => (if c = '.' then 1 else 0) + countDot cs

/-- A network oracle that always fails (every exchange errors out). -/
def netNone : Net := fun _ _ _ => none

/-- Concrete records and states used for concrete evaluations of the model. -/
def nsComRR : RR := ⟨"com.", "NS", "ns.com."⟩

def aNsRR : RR := ⟨"ns.com.", "A", "1.1.1.1"⟩

def nsXRR : RR := ⟨"x.com.", "NS", "ns.com."⟩

def aXRR : RR := ⟨"x.com.", "A", "9.9.9.9"⟩

/-- A cache that knows the `com.` delegation and the address of its name
server, as it would stand after earlier queries. -/
def cacheTwoHosts : Cache := [("com.", [nsComRR]), ("ns.com.", [aNsRR])]

/-- The same cache after a successful resolution of `x.com.`. -/
def cacheAfter : Cache :=
  [("com.", [nsComRR]), ("ns.com.", [aNsRR]), ("x.com.", [nsXRR, aXRR])]

/-- A network where the single name server `1.1.1.1` answers `NS` and `A`
queries for `x.com.` authoritatively. -/
def netTwoStep : Net := fun ip q t =>
  if ip = "1.1.1.1" ∧ q = "x.com." ∧ t = 2 then
    some ⟨0, [⟨"x.com.", 2, "ns.com."⟩], [], []⟩
  else if ip = "1.1.1.1" ∧ q = "x.com." ∧ t = 1 then
    some ⟨0, [⟨"x.com.", 1, "9.9.9.9"⟩], [], []⟩
  else none

def cnameWWW : RR := ⟨"www.ex.com.", "CNAME", "t.ex.com."⟩

def aTarget : RR := ⟨"t.ex.com.", "A", "1.2.3.4"⟩

/-- A cache holding a `CNAME` for `www.ex.com.` and the `A` record of the
chase target, so the chase is answered entirely from the cache. -/
def cacheCname : Cache := [("www.ex.com.", [cnameWWW]), ("t.ex.com.", [aTarget])]

/-- A cache holding only the address of a name server, for driving a single
exchange. -/
def cacheNsOnly : Cache := [("ns.com.", [aNsRR])]

/-- A network that answers a wire query for `x.com.` only at type code 15
(`MX`) and errors at every other type, in particular at `TypeA` = 1. -/
def netMXOnly : Net := fun ip q t =>
  if ip = "1.1.1.1" ∧ q = "x.com." ∧ t = 15 then
    some ⟨0, [⟨"x.com.", 16, "mx-answer"⟩], [], []⟩
  else none

/-- A cache entry for `ex.com.` holding a single `A` record. -/
def cacheExCom : Cache := [("ex.com.", [⟨"ex.com.", "A", "1.2.3.4"⟩])]

/-! ### Lemmas about the name normalizer -/

theorem splitLabels_ne_nil (cs : List Char) : splitLabels cs ≠ [] := by
  cases cs with
  | nil => simp [splitLabels]
  | cons c cs => unfold splitLabels; split <;> simp

theorem length_splitLabels (cs : List Char) :
    (splitLabels cs).length = countDot cs + 1 := by
  induction cs with
  | nil => simp [splitLabels, countDot]
  | cons c cs ih =>
    unfold splitLabels countDot
    obtain ⟨hd, tl, heq⟩ := List.exists_cons_of_ne_nil (splitLabels_ne_nil cs)
    rw [heq] at ih
    split
    · simp only [List.length_cons, heq, ih]
      omega
    · simp only [heq, List.headI, List.tail, List.length_cons] at ih ⊢
      omega

theorem dot_not_mem_splitLabels (cs : List Char) :
    ∀ l ∈ splitLabels cs, '.' ∉ l := by
  induction cs with
  | nil => simp [splitLabels]
  | cons c cs ih =>
    unfold splitLabels
    obtain ⟨hd, tl, heq⟩ := List.exists_cons_of_ne_nil (splitLabels_ne_nil cs)
    rw [heq] at ih
    split
    · intro l hl
      rcases List.mem_cons.mp hl with h | h
      · simp [h]
      · exact ih l (heq ▸ h)
    · intro l hl
      rename_i hc
      rw [heq] at hl
      simp only [List.headI, List.tail] at hl
      rcases List.mem_cons.mp hl with h | h
      · subst h
        intro hmem
        rcases List.mem_cons.mp hmem with h | h
        · exact hc h.symm
        · exact ih hd (heq ▸ List.mem_cons_self hd tl) h
      · exact ih l (List.mem_cons_of_mem hd h)

theorem char_toNat_ofNat (n : Nat) (h : n.isValidChar) : (Char.ofNat n).toNat = n := by
  simp [Char.ofNat, h, Char.toNat, Char.ofNatAux, UInt32.toNat]

theorem lowerChar_eq_dot_iff (c : Char) : lowerChar c = '.' ↔ c = '.' := by
  unfold lowerChar
  split
  · rename_i h
    have hv : (c.toNat + 32).isValidChar := Or.inl (by omega)
    have ht : (Char.ofNat (c.toNat + 32)).toNat = c.toNat + 32 :=
      char_toNat_ofNat _ hv
    constructor
    · intro he
      have := congrArg Char.toNat he
      rw [ht] at this
      have hdot : ('.' : Char).toNat = 46 := by decide
      omega
    · intro he
      subst he
      have hdot : ('.' : Char).toNat = 46 := by decide
      omega
  · exact Iff.rfl

theorem countDot_map_lowerChar (cs : List Char) :
    countDot (cs.map lowerChar) = countDot cs := by
  induction cs with
  | nil => simp [countDot]
  | cons c cs ih =>
    simp only [List.map_cons, countDot, ih]
    congr 1
    by_cases h : c = '.'
    · subst h
      simp [(lowerChar_eq_dot_iff '.').mpr rfl]
    · have hne : ¬lowerChar c = '.' := fun hl => h ((lowerChar_eq_dot_iff c).mp hl)
      simp [h, hne]

theorem countDot_eq_zero (l : List Char) (h : '.' ∉ l) : countDot l = 0 := by
  induction l with
  | nil => rfl
  | cons c cs ih =>
    simp only [List.mem_cons, not_or] at h
    simp [countDot, Ne.symm h.1, ih h.2]

theorem countDot_append (l₁ l₂ : List Char) :
    countDot (l₁ ++ l₂) = countDot l₁ + countDot l₂ := by
  induction l₁ with
  | nil => simp [countDot]
  | cons c cs ih => simp [countDot, ih]; omega

theorem countDot_joinLabels (ls : List (List Char)) (hne : ls ≠ [])
    (hdot : ∀ l ∈ ls, '.' ∉ l) :
    countDot (joinLabels ls) = ls.length - 1 := by
  induction ls with
  | nil => exact absurd rfl hne
  | cons l ls ih =>
    cases ls with
    | nil =>
      simp [joinLabels, countDot_eq_zero l (hdot l (List.mem_cons_self l []))]
    | cons l' rest =>
      have h1 : countDot (joinLabels (l :: l' :: rest)) =
          countDot l + countDot ('.' :: joinLabels (l' :: rest)) := by
        simp [joinLabels, countDot_append]
      rw [h1, countDot_eq_zero l (hdot l (List.mem_cons_self l _))]
      have h2 : countDot ('.' :: joinLabels (l' :: rest)) =
          1 + countDot (joinLabels (l' :: rest)) := by simp [countDot]
      rw [h2, ih (by simp) (fun x hx => hdot x (List.mem_cons_of_mem l hx))]
      simp
      omega

theorem countDot_dropLast (cs : List Char) (hl : cs.getLast? = some '.') :
    countDot cs.dropLast + 1 = countDot cs := by
  have hne : cs ≠ [] := by intro h; subst h; simp at hl
  conv_rhs => rw [← List.dropLast_append_getLast hne]
  rw [countDot_append]
  have hlast : cs.getLast hne = '.' := by
    have h2 := List.getLast?_eq_getLast cs hne
    rw [h2] at hl
    exact Option.some_inj.mp hl
  rw [hlast]
  simp [countDot]

theorem countLabel_mk (cs : List Char) (h0 : cs ≠ []) (h1 : cs ≠ ['.']) :
    countLabel ⟨cs⟩ = countDot (stripDot cs) + 1 := by
  have hd : (⟨cs⟩ : String).data = cs := rfl
  unfold countLabel splitDomainName
  rw [hd, if_neg h0, if_neg (not_or.mpr ⟨h0, h1⟩), length_splitLabels]

theorem countLabel_fqdnL_le (jl : List Char) :
    countLabel ⟨fqdnL jl⟩ ≤ countDot jl + 1 := by
  unfold fqdnL
  split
  · rename_i hl
    have hne : jl ≠ [] := by intro h; rw [h] at hl; simp at hl
    by_cases hroot : jl = ['.']
    · subst hroot
      have hz : countLabel ⟨['.']⟩ = 0 := by decide
      omega
    · rw [countLabel_mk jl hne hroot]
      have hs : stripDot jl = jl.dropLast := by unfold stripDot; rw [if_pos hl]
      rw [hs]
      have hdec := countDot_dropLast jl hl
      omega
  · by_cases hnil : jl = []
    · subst hnil
      have hz : countLabel ⟨[] ++ ['.']⟩ = 0 := by decide
      rw [hz]
      omega
    · have hne2 : jl ++ ['.'] ≠ ['.'] := by
        intro h
        apply hnil
        have := congrArg List.length h
        simp at this
        exact this
      rw [countLabel_mk (jl ++ ['.']) (by simp) hne2]
      have hs : stripDot (jl ++ ['.']) = jl := by
        unfold stripDot
        rw [if_pos (List.getLast?_concat jl), List.dropLast_concat]
      rw [hs]

theorem countLabel_fqdnL_eq (jl : List Char) (h1 : jl ≠ [])
    (h2 : jl.getLast? ≠ some '.') :
    countLabel ⟨fqdnL jl⟩ = countDot jl + 1 := by
  unfold fqdnL
  rw [if_neg h2]
  have hne2 : jl ++ ['.'] ≠ ['.'] := by
    intro h
    apply h1
    have := congrArg List.length h
    simp at this
    exact this
  rw [countLabel_mk (jl ++ ['.']) (by simp) hne2]
  have hs : stripDot (jl ++ ['.']) = jl := by
    unfold stripDot
    rw [if_pos (List.getLast?_concat jl), List.dropLast_concat]
  rw [hs]

theorem countLabel_parent_le (tl : List (List Char)) (hdot : ∀ l ∈ tl, '.' ∉ l) :
    countLabel (toLowerFQDN ⟨joinLabels tl⟩) ≤ tl.length := by
  cases tl with
  | nil => decide
  | cons l ls =>
    show countLabel ⟨fqdnL ((joinLabels (l :: ls)).map lowerChar)⟩ ≤ _
    have h1 := countLabel_fqdnL_le ((joinLabels (l :: ls)).map lowerChar)
    have h2 : countDot ((joinLabels (l :: ls)).map lowerChar) = (l :: ls).length - 1 := by
      rw [countDot_map_lowerChar, countDot_joinLabels _ (by simp) hdot]
    rw [h2] at h1
    simp only [List.length_cons] at h1 ⊢
    omega

theorem countLabel_of_split_cons {n : String} {h : List Char} {tl : List (List Char)}
    (hs : splitDomainName n = h :: tl) : countLabel n = tl.length + 1 := by
  have hne : n.data ≠ [] := by
    intro hd
    unfold splitDomainName at hs
    rw [if_pos (Or.inl hd)] at hs
    exact (List.cons_ne_nil h tl) hs.symm
  unfold countLabel
  rw [if_neg hne, hs]
  simp

theorem split_tail_dot_free {n : String} {h : List Char} {tl : List (List Char)}
    (hs : splitDomainName n = h :: tl) : ∀ l ∈ tl, '.' ∉ l := by
  intro l hl
  unfold splitDomainName at hs
  split at hs
  · exact absurd hs.symm (List.cons_ne_nil h tl)
  · exact dot_not_mem_splitLabels (stripDot n.data) l (hs ▸ List.mem_cons_of_mem h hl)

theorem parent_countLabel_lt (n p : String) (hp : parent n = some p) :
    countLabel p < countLabel n := by
  unfold parent at hp
  cases hs : splitDomainName n with
  | nil => rw [hs] at hp; simp at hp
  | cons h tl =>
    rw [hs] at hp
    simp only [Option.some_inj] at hp
    subst hp
    rw [countLabel_of_split_cons hs]
    have := countLabel_parent_le tl (split_tail_dot_free hs)
    omega

theorem parent_eq_none_iff (n : String) : parent n = none ↔ (n = "." ∨ n = "") := by
  have hdata : splitDomainName n = [] ↔ (n.data = [] ∨ n.data = ['.']) := by
    unfold splitDomainName
    split
    · rename_i hg
      simp [hg]
    · rename_i hg
      simp [hg, splitLabels_ne_nil]
  constructor
  · intro hp
    have hs : splitDomainName n = [] := by
      unfold parent at hp
      cases hs : splitDomainName n with
      | nil => rfl
      | cons h tl => rw [hs] at hp; simp at hp
    rcases hdata.mp hs with h | h
    · right
      exact String.ext h
    · left
      exact String.ext h
  · intro h
    have hs : splitDomainName n = [] := by
      apply hdata.mpr
      rcases h with h | h <;> subst h
      · right; rfl
      · left; rfl
    unfold parent
    rw [hs]

theorem stepsToRoot_bound_aux (g : Nat) : ∀ n, countLabel n < g →
    ∃ k, k ≤ countLabel n + 1 ∧ stepsToRoot g n = some k := by
  induction g with
  | zero => intro n h; omega
  | succ g ih =>
    intro n h
    cases hp : parent n with
    | none => exact ⟨1, by omega, by simp [stepsToRoot, hp]⟩
    | some p =>
      have hlt := parent_countLabel_lt n p hp
      obtain ⟨k, hk, hs⟩ := ih p (by omega)
      exact ⟨k + 1, by omega, by simp [stepsToRoot, hp, hs]⟩

theorem parentChainF_stable (g : Nat) : ∀ (g' : Nat) (n : String),
    countLabel n < g → countLabel n < g' → parentChainF g n = parentChainF g' n := by
  induction g with
  | zero => intro g' n h; omega
  | succ g ih =>
    intro g' n h h'
    cases g' with
    | zero => omega
    | succ g' =>
      unfold parentChainF
      cases hp : parent n with
      | none => rfl
      | some p =>
        have hlt := parent_countLabel_lt n p hp
        simp only [List.cons.injEq, true_and]
        exact ih g' p (by omega) (by omega)

/-! ### Lemmas about the cache -/

theorem mem_insertRR (rrs : List RR) (a rr : RR) :
    rr ∈ insertRR rrs a ↔ rr ∈ rrs ∨ rr = a := by
  unfold insertRR
  split
  · rename_i h
    constructor
    · exact Or.inl
    · rintro (hm | rfl)
      · exact hm
      · exact h
  · simp

theorem mem_foldl_insertRR (new : List RR) : ∀ (init : List RR) (rr : RR),
    rr ∈ new.foldl insertRR init ↔ rr ∈ init ∨ rr ∈ new := by
  induction new with
  | nil => simp
  | cons a new ih =>
    intro init rr
    simp only [List.foldl_cons, ih, mem_insertRR, List.mem_cons]
    tauto

theorem cacheGetEntry_cacheAdd (c : Cache) (k : String) (new : List RR) (n : String) :
    cacheGetEntry (cacheAdd c k new) n =
      if k = n then some (new.foldl insertRR ((cacheGetEntry c n).getD []))
      else cacheGetEntry c n := by
  induction c with
  | nil =>
    unfold cacheAdd cacheGetEntry
    by_cases h : k = n <;> simp [h, cacheGetEntry]
  | cons e rest ih =>
    obtain ⟨k', rrs'⟩ := e
    unfold cacheAdd
    by_cases hk : k' = k
    · subst hk
      rw [if_pos rfl]
      unfold cacheGetEntry
      by_cases hn : k' = n
      · subst hn
        simp
      · simp [hn]
    · rw [if_neg hk]
      unfold cacheGetEntry
      by_cases hn : k' = n
      · subst hn
        have h2 : ¬k = k' := fun h => hk h.symm
        simp [h2]
      · simp [hn, ih]

theorem cacheAdd_char (c : Cache) (k : String) (new : List RR) (n : String) (rr : RR) :
    memCache (cacheAdd c k new) n rr ↔ memCache c n rr ∨ (n = k ∧ rr ∈ new) := by
  by_cases h : k = n
  · subst h
    unfold memCache
    rw [cacheGetEntry_cacheAdd, if_pos rfl]
    cases hc : cacheGetEntry c k <;> simp [mem_foldl_insertRR, hc]
  · unfold memCache
    rw [cacheGetEntry_cacheAdd, if_neg h]
    have h' : ¬n = k := fun hn => h hn.symm
    simp [h']

theorem mem_foldl_cacheAdd (gs : List (String × List RR)) :
    ∀ (c : Cache) (n : String) (rr : RR),
    memCache (gs.foldl (fun acc e => cacheAdd acc e.1 e.2) c) n rr ↔
      memCache c n rr ∨ ∃ g, (n, g) ∈ gs ∧ rr ∈ g := by
  induction gs with
  | nil => simp
  | cons e gs ih =>
    intro c n rr
    obtain ⟨k, g⟩ := e
    simp only [List.foldl_cons, ih, cacheAdd_char, List.mem_cons, Prod.mk.injEq]
    constructor
    · rintro ((hm | ⟨rfl, hg⟩) | ⟨g', hg', hr⟩)
      · exact Or.inl hm
      · exact Or.inr ⟨g, Or.inl ⟨rfl, rfl⟩, hg⟩
      · exact Or.inr ⟨g', Or.inr hg', hr⟩
    · rintro (hm | ⟨g', (⟨rfl, rfl⟩ | hg'), hr⟩)
      · exact Or.inl (Or.inl hm)
      · exact Or.inl (Or.inr ⟨rfl, hr⟩)
      · exact Or.inr ⟨g', hg', hr⟩

theorem mem_addToGroup (acc : List (String × List RR)) (x : RR) (n : String) (rr : RR) :
    (∃ g, (n, g) ∈ addToGroup acc x ∧ rr ∈ g) ↔
      (∃ g, (n, g) ∈ acc ∧ rr ∈ g) ∨ (rr = x ∧ x.name = n) := by
  induction acc with
  | nil =>
    unfold addToGroup
    constructor
    · rintro ⟨g, hg, hr⟩
      simp only [List.mem_singleton, Prod.mk.injEq] at hg
      obtain ⟨h1, h2⟩ := hg
      subst h2
      simp only [List.mem_singleton] at hr
      exact Or.inr ⟨hr, h1.symm⟩
    · rintro (⟨g, hg, _⟩ | ⟨rfl, hn⟩)
      · simp at hg
      · exact ⟨[rr], by simp [hn], by simp⟩
  | cons e acc ih =>
    obtain ⟨k, g0⟩ := e
    unfold addToGroup
    by_cases hk : k = x.name
    · rw [if_pos hk]
      subst hk
      constructor
      · rintro ⟨g, hg, hr⟩
        rcases List.mem_cons.mp hg with hg | hg
        · simp only [Prod.mk.injEq] at hg
          obtain ⟨h1, h2⟩ := hg
          have hr' : rr ∈ g0 ++ [x] := h2 ▸ hr
          rcases List.mem_append.mp hr' with hr'' | hr''
          · exact Or.inl ⟨g0, by simp [h1], hr''⟩
          · simp only [List.mem_singleton] at hr''
            exact Or.inr ⟨hr'', h1.symm⟩
        · exact Or.inl ⟨g, List.mem_cons_of_mem _ hg, hr⟩
      · rintro (⟨g, hg, hr⟩ | ⟨rfl, hn⟩)
        · rcases List.mem_cons.mp hg with hg | hg
          · simp only [Prod.mk.injEq] at hg
            obtain ⟨h1, h2⟩ := hg
            exact ⟨g0 ++ [x], by simp [h1], List.mem_append.mpr (Or.inl (h2 ▸ hr))⟩
          · exact ⟨g, List.mem_cons_of_mem _ hg, hr⟩
        · exact ⟨g0 ++ [rr], by simp [hn], by simp⟩
    · rw [if_neg hk]
      constructor
      · rintro ⟨g, hg, hr⟩
        rcases List.mem_cons.mp hg with hg | hg
        · simp only [Prod.mk.injEq] at hg
          obtain ⟨h1, h2⟩ := hg
          exact Or.inl ⟨g, by simp [h1, h2], hr⟩
        · rcases ih.mp ⟨g, hg, hr⟩ with ⟨g', hg', hr'⟩ | h
          · exact Or.inl ⟨g', List.mem_cons_of_mem _ hg', hr'⟩
          · exact Or.inr h
      · rintro (⟨g, hg, hr⟩ | h)
        · rcases List.mem_cons.mp hg with hg | hg
          · simp only [Prod.mk.injEq] at hg
            obtain ⟨h1, h2⟩ := hg
            exact ⟨g, by simp [h1, h2], hr⟩
          · obtain ⟨g', hg', hr'⟩ := ih.mpr (Or.inl ⟨g, hg, hr⟩)
            exact ⟨g', List.mem_cons_of_mem _ hg', hr'⟩
        · obtain ⟨g', hg', hr'⟩ := ih.mpr (Or.inr h)
          exact ⟨g', List.mem_cons_of_mem _ hg', hr'⟩

theorem mem_foldl_addToGroup (l : List RR) : ∀ (acc : List (String × List RR))
    (n : String) (rr : RR),
    (∃ g, (n, g) ∈ l.foldl addToGroup acc ∧ rr ∈ g) ↔
      (∃ g, (n, g) ∈ acc ∧ rr ∈ g) ∨ (rr ∈ l ∧ rr.name = n) := by
  induction l with
  | nil => simp
  | cons x l ih =>
    intro acc n rr
    simp only [List.foldl_cons, ih, mem_addToGroup, List.mem_cons]
    constructor
    · rintro ((h | ⟨rfl, hn⟩) | ⟨hl, hn⟩)
      · exact Or.inl h
      · exact Or.inr ⟨Or.inl rfl, hn⟩
      · exact Or.inr ⟨Or.inr hl, hn⟩
    · rintro (h | ⟨(rfl | hl), hn⟩)
      · exact Or.inl (Or.inl h)
      · exact Or.inl (Or.inr ⟨rfl, hn⟩)
      · exact Or.inr ⟨hl, hn⟩

theorem mem_groupByName (l : List RR) (n : String) (rr : RR) :
    (∃ g, (n, g) ∈ groupByName l ∧ rr ∈ g) ↔ (rr ∈ l ∧ rr.name = n) := by
  unfold groupByName
  rw [mem_foldl_addToGroup]
  simp

theorem saveDNSRR_mem_iff (c : Cache) (q : String) (drrs : List DnsRR)
    (n : String) (rr : RR) :
    memCache (saveDNSRR c q drrs) n rr ↔
      memCache c n rr ∨
        (rr.name = n ∧ ∃ drr ∈ drrs,
          keepDrr (countLabel q) drr = true ∧ convertRR drr = some rr) := by
  unfold saveDNSRR
  rw [mem_foldl_cacheAdd, mem_groupByName]
  simp only [List.mem_filterMap, List.mem_filter]
  constructor
  · rintro (hm | ⟨⟨drr, ⟨hd, hk⟩, hc⟩, hn⟩)
    · exact Or.inl hm
    · exact Or.inr ⟨hn, drr, hd, hk, hc⟩
  · rintro (hm | ⟨hn, drr, hd, hk, hc⟩)
    · exact Or.inl hm
    · exact Or.inr ⟨⟨drr, ⟨hd, hk⟩, hc⟩, hn⟩

/-! ### Claim theorems -/

/-- C1, counterexample: for the cache state whose entry for `ex.com.` holds a
single `A` record (non-empty, no `NS` record), the claim says
`cacheGet(ex.com., NS)` returns the unfiltered slice of all records in the
entry; the code instead returns the empty non-nil slice. -/
theorem C1_counterexample :
    cacheGet cacheExCom "ex.com." "NS" = some [] ∧
    getAny cacheExCom "ex.com." = some [⟨"ex.com.", "A", "1.2.3.4"⟩] ∧
    ¬cacheGet cacheExCom "ex.com." "NS" = some [⟨"ex.com.", "A", "1.2.3.4"⟩] := by
  decide

theorem cacheGet_of_getAny (s : Cache) (q t : String) (any : List RR)
    (hany : getAny s q = some any) (hne : ¬any.length = 0) :
    cacheGet s q t =
      if (any.filter (fun rr => t = "" ∨ rr.rtype = t)).length = 0 ∧
          (¬t = "" ∧ ¬t = "NS") then none
      else some (any.filter (fun rr => t = "" ∨ rr.rtype = t)) := by
  unfold cacheGet
  rw [hany]
  simp [hne]

/-- C1, amended: when the entry (or its root-hint fallback) is non-empty but
holds no record of type `qtype`, `cacheGet` returns the full slice for
`qtype = ""` (everything passes the filter), the empty non-nil slice for
`qtype = "NS"`, and `nil` for every other `qtype`. -/
theorem C1_amended_cacheGet (s : Cache) (q t : String) (any : List RR)
    (hany : getAny s q = some any) (hne : any ≠ [])
    (hnot : ∀ rr ∈ any, ¬rr.rtype = t) :
    (t = "" → cacheGet s q t = some any) ∧
    (t = "NS" → cacheGet s q t = some []) ∧
    (¬t = "" → ¬t = "NS" → cacheGet s q t = none) := by
  have hlen : ¬any.length = 0 := by simpa using hne
  refine ⟨?_, ?_, ?_⟩
  · intro ht
    subst ht
    have hf : any.filter (fun rr => ("" : String) = "" ∨ rr.rtype = "") = any :=
      List.filter_eq_self.mpr (by intro a _; simp)
    rw [cacheGet_of_getAny s q "" any hany hlen, hf]
    simp [hlen]
  · intro ht
    subst ht
    have hf : any.filter (fun rr => ("NS" : String) = "" ∨ rr.rtype = "NS") = [] :=
      List.filter_eq_nil_iff.mpr (by intro a ha; simp [hnot a ha])
    rw [cacheGet_of_getAny s q "NS" any hany hlen, hf]
    simp
  · intro h1 h2
    have hf : any.filter (fun rr => t = "" ∨ rr.rtype = t) = [] :=
      List.filter_eq_nil_iff.mpr (by intro a ha; simp [hnot a ha, h1])
    rw [cacheGet_of_getAny s q t any hany hlen, hf]
    simp [h1, h2]

/-- C1, witness for the amended theorem at a concrete input. -/
theorem C1_amended_cacheGet_witness :
    cacheGet cacheExCom "ex.com." "CNAME" = none :=
  (C1_amended_cacheGet cacheExCom "ex.com." "CNAME" [⟨"ex.com.", "A", "1.2.3.4"⟩]
    (by decide) (by decide) (by decide)).2.2 (by decide) (by decide)

/-- C4, counterexample: in a response carrying one poisoning `NS` record and
one `MX` record for the query `x.com.`, the claim says the `MX` record (one of
the "other records of the same response") is retained; the code drops it during
conversion, leaving the cache without any entry. -/
theorem C4_counterexample :
    saveDNSRR [] "x.com." [⟨"com.", 2, "ns.com."⟩, ⟨"x.com.", 15, "mail.x.com."⟩] = [] ∧
    cacheGetEntry (saveDNSRR [] "x.com."
      [⟨"com.", 2, "ns.com."⟩, ⟨"x.com.", 15, "mail.x.com."⟩]) "x.com." = none ∧
    keepDrr (countLabel "x.com.") ⟨"x.com.", 15, "mail.x.com."⟩ = true := by
  decide

/-- C4, amended: the records present after `saveDNSRR` on behalf of a query
are exactly those already present plus the conversions of the response records
that survive the poisoning filter; in particular a short `NS` record is never
inserted, and every surviving record of a supported type is retained under its
owner name. -/
theorem C4_amended_saveDNSRR (c : Cache) (q : String) (drrs : List DnsRR)
    (n : String) (rr : RR) :
    memCache (saveDNSRR c q drrs) n rr ↔
      memCache c n rr ∨
        (rr.name = n ∧ ∃ drr ∈ drrs,
          keepDrr (countLabel q) drr = true ∧ convertRR drr = some rr) :=
  saveDNSRR_mem_iff c q drrs n rr

/-- C5: `resolve` increments the depth first and aborts with `nil` (not the
empty slice) once the incremented depth exceeds `MaxRecursion`, for every
cache state and network, leaving the state untouched and performing zero
exchanges. -/
theorem C5_maxRecursion_nil (net : Net) (s : Cache) (qname qtype : String)
    (depth : Nat) (h : MaxRecursion < depth + 1) :
    resolve net s qname qtype depth = (none, s, 0) ∧
    ∀ rrs : List RR, resolve net s qname qtype depth ≠ (some rrs, s, 0) := by
  have hz : MaxRecursion - depth = 0 := by
    unfold MaxRecursion at h ⊢
    omega
  constructor
  · unfold resolve
    rw [hz]
    rfl
  · intro rrs hcontra
    unfold resolve at hcontra
    rw [hz] at hcontra
    simp [resolveF] at hcontra

/-- C5, witness for the recursion guard at depth 10. -/
theorem C5_maxRecursion_nil_witness :
    resolve netNone (New 0) "x.com." "A" 10 = (none, New 0, 0) :=
  (C5_maxRecursion_nil netNone (New 0) "x.com." "A" 10 (by decide)).1

/-- C6, amended: what holds of back-to-back calls is the cache-hit law: when
the (normalized) query has a non-nil filtered cache entry — as after a first
call that populated it — `resolve` returns exactly that slice, unchanged state,
and performs zero exchanges. -/
theorem C6_amended_cache_hit (net : Net) (s : Cache) (n t : String) (depth : Nat)
    (rrs : List RR) (hd : depth < MaxRecursion)
    (hhit : cacheGet s (toLowerFQDN n) t = some rrs) :
    resolve net s n t depth = (some rrs, s, 0) := by
  have hf : MaxRecursion - depth = (MaxRecursion - depth - 1) + 1 := by
    unfold MaxRecursion at hd ⊢
    omega
  unfold resolve
  rw [hf]
  simp [resolveF, hhit]

/-- C6, witness for the cache-hit law at a concrete input. -/
theorem C6_amended_cache_hit_witness :
    resolve netNone cacheExCom "ex.com." "A" 0 =
      (some [⟨"ex.com.", "A", "1.2.3.4"⟩], cacheExCom, 0) :=
  C6_amended_cache_hit netNone cacheExCom "ex.com." "A" 0
    [⟨"ex.com.", "A", "1.2.3.4"⟩] (by decide) (by decide)

/-- C7, counterexample: directly after construction the resolver's cache has
no entry for the root, yet `cacheGet` serves the root `NS` records — they come
from the separate `rootCache` fallback, not from insertions into the cache as
the claim states. -/
theorem C7_counterexample :
    cacheGetEntry (New 10) "." = none ∧
    cacheGet (New 10) "." "NS" =
      some [⟨".", "NS", "a.root-servers.net."⟩, ⟨".", "NS", "b.root-servers.net."⟩] ∧
    cacheGetEntry rootHints "." =
      some [⟨".", "NS", "a.root-servers.net."⟩, ⟨".", "NS", "b.root-servers.net."⟩] := by
  decide

/-- C7, amended: the root hints live in a separate immutable store; the
resolver's cache is empty at construction, and `cacheGet` consults the root
store only as a fallback when the cache has no entry for the name. -/
theorem C7_amended_root_fallback (cap : Nat) (s : Cache) (q : String)
    (h : cacheGetEntry s q = none) :
    cacheGetEntry (New cap) q = none ∧ getAny s q = cacheGetEntry rootHints q := by
  constructor
  · rfl
  · unfold getAny
    rw [h]

/-- C7, witness for the fallback law at a concrete input. -/
theorem C7_amended_root_fallback_witness :
    cacheGetEntry (New 10) "x.com." = none ∧
    getAny (New 10) "x.com." = cacheGetEntry rootHints "x.com." :=
  C7_amended_root_fallback 10 (New 10) "x.com." (by decide)

theorem getLast?_map_lowerChar (l : List Char) :
    (l.map lowerChar).getLast? = (l.getLast?).map lowerChar := by
  induction l with
  | nil => simp
  | cons a l ih =>
    cases l with
    | nil => simp
    | cons b l =>
      simp only [List.map_cons, List.getLast?_cons_cons] at ih ⊢
      simpa using ih

theorem joinLabels_getLast_ne_dot (ls : List (List Char)) (hne : ls ≠ [])
    (hnil : ∀ l ∈ ls, l ≠ []) (hdot : ∀ l ∈ ls, '.' ∉ l) :
    ∃ c, (joinLabels ls).getLast? = some c ∧ ¬c = '.' := by
  induction ls with
  | nil => exact absurd rfl hne
  | cons l ls ih =>
    cases ls with
    | nil =>
      have hl : l ≠ [] := hnil l (List.mem_cons_self l [])
      refine ⟨l.getLast hl, ?_, ?_⟩
      · show l.getLast? = some (l.getLast hl)
        exact List.getLast?_eq_getLast l hl
      · exact fun hcon => hdot l (List.mem_cons_self l []) (hcon ▸ List.getLast_mem hl)
    | cons l' rest =>
      obtain ⟨c, hc, hcd⟩ := ih (by simp)
        (fun x hx => hnil x (List.mem_cons_of_mem _ hx))
        (fun x hx => hdot x (List.mem_cons_of_mem _ hx))
      refine ⟨c, ?_, hcd⟩
      show (l ++ '.' :: joinLabels (l' :: rest)).getLast? = some c
      have hsplit : ('.' :: joinLabels (l' :: rest)) = ['.'] ++ joinLabels (l' :: rest) := rfl
      rw [List.getLast?_append, hsplit, List.getLast?_append, hc]
      rfl

theorem parent_countLabel_eq (n p : String) (hempty : [] ∉ splitDomainName n)
    (hp : parent n = some p) : countLabel p + 1 = countLabel n := by
  unfold parent at hp
  cases hs : splitDomainName n with
  | nil => rw [hs] at hp; simp at hp
  | cons h tl =>
    rw [hs] at hp
    simp only [Option.some_inj] at hp
    subst hp
    rw [countLabel_of_split_cons hs]
    rw [hs] at hempty
    cases tl with
    | nil =>
      have hz : countLabel (toLowerFQDN ⟨joinLabels []⟩) = 0 := by decide
      simp [hz]
    | cons l ls =>
      have hdot := split_tail_dot_free hs
      have hnil : ∀ x ∈ l :: ls, x ≠ [] := by
        intro x hx hxe
        exact hempty (List.mem_cons_of_mem h (hxe ▸ hx))
      obtain ⟨c, hc, hcd⟩ := joinLabels_getLast_ne_dot (l :: ls) (by simp) hnil hdot
      have hjlast : ((joinLabels (l :: ls)).map lowerChar).getLast? = some (lowerChar c) := by
        rw [getLast?_map_lowerChar, hc]
        rfl
      have hjne : (joinLabels (l :: ls)).map lowerChar ≠ [] := by
        intro hj
        rw [hj] at hjlast
        simp at hjlast
      have hnd : ¬((joinLabels (l :: ls)).map lowerChar).getLast? = some '.' := by
        rw [hjlast]
        intro hcon
        simp only [Option.some_inj] at hcon
        exact hcd ((lowerChar_eq_dot_iff c).mp hcon)
      show countLabel ⟨fqdnL ((joinLabels (l :: ls)).map lowerChar)⟩ + 1 = (l :: ls).length + 1
      rw [countLabel_fqdnL_eq _ hjne hnd, countDot_map_lowerChar,
        countDot_joinLabels _ (by simp) hdot]
      simp only [List.length_cons]
      omega

/-- C9, counterexample: on the name `a..` (which the codec splits into the
labels `a` and the empty label), `parent` returns the root, dropping two
labels at once rather than exactly one as the claim states. -/
theorem C9_counterexample :
    parent "a.." = some "." ∧ countLabel "a.." = 2 ∧ countLabel "." = 0 ∧
    ¬countLabel "." = countLabel "a.." - 1 := by
  decide

/-- C9, amended: `parent` returns false exactly for the root `"."` and the
empty name; otherwise it returns a name with strictly fewer labels — exactly
one fewer when the input has no empty labels — hence the repeated parent
iteration terminates after at most `labels(n) + 1` steps for every input. -/
theorem C9_amended_parent (n : String) :
    (parent n = none ↔ (n = "." ∨ n = "")) ∧
    (∀ p, parent n = some p → countLabel p < countLabel n) ∧
    (∀ p, [] ∉ splitDomainName n → parent n = some p → countLabel p + 1 = countLabel n) ∧
    (∃ k, k ≤ countLabel n + 1 ∧ stepsToRoot (countLabel n + 1) n = some k) := by
  refine ⟨parent_eq_none_iff n, fun p hp => parent_countLabel_lt n p hp,
    fun p he hp => parent_countLabel_eq n p he hp, ?_⟩
  exact stepsToRoot_bound_aux (countLabel n + 1) n (by omega)

/-- C9, witness for the amended theorem: on `www.x.com.` the parent walk
drops exactly one label per step and the step count is bounded. -/
theorem C9_amended_parent_witness :
    countLabel "x.com." < countLabel "www.x.com." ∧
    countLabel "x.com." + 1 = countLabel "www.x.com." ∧
    stepsToRoot (countLabel "www.x.com." + 1) "www.x.com." = some 4 := by
  refine ⟨(C9_amended_parent "www.x.com.").2.1 "x.com." (by decide),
    (C9_amended_parent "www.x.com.").2.2.1 "x.com." (by decide) (by decide), ?_⟩
  decide

/-- C2: evaluating `resolveCNAMEs` on a snapshot holding one `CNAME` record
whose target's `A` record resolves from the cache: the resolved `A` record is
inserted into the cache under `qname`, but the result slice receives the
`CNAME` record a second time instead of the resolved record — the claim (and
the spec and the package's own tests) expect the resolved record in the
result. -/
theorem C2_code_evaluation :
    resolveCNAMEsGo (resolveF netNone 5) cacheCname "www.ex.com." "A" =
      (some [cnameWWW, cnameWWW],
       [("www.ex.com.", [cnameWWW, aTarget]), ("t.ex.com.", [aTarget])], 0) ∧
    aTarget ∉ [cnameWWW, cnameWWW] := by
  decide

/-- C3, counterexample: starting from a cache in which every record lies under
its own name, one CNAME chase stores the record `t.ex.com. A 1.2.3.4` under
the key `www.ex.com.`, violating the invariant `rr.name =` key. -/
theorem C3_counterexample :
    (∀ rr ∈ [cnameWWW], rr.name = "www.ex.com.") ∧
    (∀ rr ∈ [aTarget], rr.name = "t.ex.com.") ∧
    cacheGetEntry (resolveCNAMEsGo (resolveF netNone 5) cacheCname
      "www.ex.com." "A").2.1 "www.ex.com." = some [cnameWWW, aTarget] ∧
    ¬aTarget.name = "www.ex.com." := by
  decide

/-- C3, amended: the invariant holds for the `saveDNSRR` insertion path, which
groups records by their own owner name: `saveDNSRR` preserves it from any
state.  (The CNAME chase violates it, see the counterexample.) -/
theorem C3_amended_saveDNSRR_inv (c : Cache) (q : String) (drrs : List DnsRR)
    (hinv : CacheInv c) : CacheInv (saveDNSRR c q drrs) := by
  intro n rrs hget rr hmem
  have hm : memCache (saveDNSRR c q drrs) n rr := ⟨rrs, hget, hmem⟩
  rcases (saveDNSRR_mem_iff c q drrs n rr).mp hm with ⟨rrs', hget', hmem'⟩ | ⟨hn, _⟩
  · exact hinv n rrs' hget' rr hmem'
  · exact hn

/-- C3, witness for the amended theorem: saving a record into the empty cache
preserves the invariant. -/
theorem C3_amended_saveDNSRR_inv_witness :
    CacheInv (saveDNSRR [] "x.com." [⟨"x.com.", 1, "9.9.9.9"⟩]) :=
  C3_amended_saveDNSRR_inv [] "x.com." [⟨"x.com.", 1, "9.9.9.9"⟩]
    (fun n rrs h => by simp [cacheGetEntry] at h)

/-- C6, counterexample: with one authoritative name server for `x.com.`, the
first `resolve(x.com., A)` performs two exchanges and returns the entry's
`NS` and `A` records (via the CNAME-chase snapshot of the whole entry), while
the immediate second call answers from the cache with the `A` record only —
the two calls do not return the same membership, though the second call indeed
performs zero exchanges. -/
theorem C6_counterexample :
    resolve netTwoStep cacheTwoHosts "x.com." "A" 0 = (some [nsXRR, aXRR], cacheAfter, 2) ∧
    resolve netTwoStep cacheAfter "x.com." "A" 0 = (some [aXRR], cacheAfter, 0) ∧
    nsXRR ∈ [nsXRR, aXRR] ∧ nsXRR ∉ [aXRR] := by
  decide

/-- C10, counterexample: `MX` is present in the codec's type table, so for
`qtype = "MX"` the exchange does not substitute `TypeA`: it queries the wire
at type code 15, as shown by a network that answers only at code 15 and errors
at `TypeA` = 1. -/
theorem C10_counterexample :
    dtypeFor "MX" = 15 ∧ ¬dtypeFor "MX" = 1 ∧
    (exchangeGo netMXOnly (resolveF netMXOnly 3) cacheNsOnly "ns.com." "x.com." "MX").1
      = true ∧
    netMXOnly "1.1.1.1" "x.com." 1 = none := by
  decide

/-- C10, amended: only `qtype` strings absent from the codec's type table map
to code 0 and are replaced by `TypeA` = 1 in the wire query; a recognized type
string is sent unchanged; and cache filtering always uses the original
`qtype` string: every record returned by a filtered `cacheGet` has that exact
textual type (or the query was the match-all `""`). -/
theorem C10_amended_dtype (q : String) (s : Cache) (qn t : String)
    (rrs : List RR) (rr : RR) :
    (stringToType q = 0 → dtypeFor q = 1) ∧
    (¬stringToType q = 0 → dtypeFor q = stringToType q) ∧
    (cacheGet s qn t = some rrs → rr ∈ rrs → t = "" ∨ rr.rtype = t) := by
  refine ⟨?_, ?_, ?_⟩
  · intro h
    simp [dtypeFor, h]
  · intro h
    simp [dtypeFor, h]
  · intro hget hmem
    cases hg : getAny s qn with
    | none =>
      unfold cacheGet at hget
      rw [hg] at hget
      simp at hget
    | some any =>
      by_cases hl : any.length = 0
      · unfold cacheGet at hget
        rw [hg] at hget
        simp only [if_pos hl, Option.some_inj] at hget
        subst hget
        have : any = [] := by simpa using hl
        subst this
        simp at hmem
      · rw [cacheGet_of_getAny s qn t any hg hl] at hget
        split at hget
        · simp at hget
        · simp only [Option.some_inj] at hget
          subst hget
          have := List.mem_filter.mp hmem
          simpa using this.2

/-- C10, witness for the amended theorem: an unrecognized string falls back to
`TypeA`, and a filtered `cacheGet` result carries the queried type. -/
theorem C10_amended_dtype_witness :
    dtypeFor "FOO" = 1 ∧
    ("A" = "" ∨ (⟨"ex.com.", "A", "1.2.3.4"⟩ : RR).rtype = "A") :=
  ⟨(C10_amended_dtype "FOO" cacheExCom "ex.com." "A" [⟨"ex.com.", "A", "1.2.3.4"⟩]
      ⟨"ex.com.", "A", "1.2.3.4"⟩).1 (by decide),
   (C10_amended_dtype "FOO" cacheExCom "ex.com." "A" [⟨"ex.com.", "A", "1.2.3.4"⟩]
      ⟨"ex.com.", "A", "1.2.3.4"⟩).2.2 (by decide) (by decide)⟩
